import Mathlib

/-!
Verification development for the hpiutil2 archive reader core
(src/rts/hpiutil2/hpifile.cpp).

The C++ code is shallowly embedded: the keyed stream (`scrambledfile`)
is an external collaborator and is modelled as a record of read
primitives; the stream cursor is threaded explicitly as a `Nat`; the
chunk codec (`sqshstream` over a `substream`) is modelled as a function
from a bounded range (start offset and byte length) to an optional
decompressed byte list.  `getdata` additionally records the list of
bounded ranges it hands to the codec, which is exactly the sequence of
`substream` constructions the C++ performs — this makes the calls to the
external codec observable in theorem statements.
-/

/-- Modelled from the spec: the signature constants live in hpiutil.h,
which is not under src/.  The spec fixes their roles (container
signature, directory-subtype signature, save-game signature, newer major
version signature); only their mutual distinctness matters to the
claims.  Value of `HAPI_MAGIC`, the expected container signature. -/
def HAPI_MAGIC : Nat := 0x49504148

/-- Modelled from the spec: the expected directory-subtype signature
(`magic2` on the success path). -/
def HAPI_VERSION_MAGIC : Nat := 0x00010000

/-- Modelled from the spec: the save-game subtype signature. -/
def BANK_MAGIC : Nat := 0x4B4E4142

/-- Modelled from the spec: the newer-major-version signature. -/
def HAPI2_VERSION_MAGIC : Nat := 0x00020000

/-- Modelled from the spec: the path separator used to slash-join parent
names (defined in a header not under src/). -/
def PATHSEPARATOR : String := "/"

/-- Modelled from the spec: hpiutil.h is not under src/; per the spec,
chunk counts are computed by ceiling division by a fixed chunk unit of
2^16 bytes, and `bitdiv n b` is the quotient `n / 2^b`. -/
def bitdiv (n b : Nat) : Nat := n / 2 ^ b

/-- Modelled from the spec: `bitmod n b` is the remainder `n % 2^b`. -/
def bitmod (n b : Nat) : Nat := n % 2 ^ b

/-- The chunk count `bitdiv(size,16) + (bitmod(size,16) ? 1 : 0)`
computed by `getdata`: ceiling division of the uncompressed size by the
2^16-byte chunk unit. -/
def chunknumOf (size : Nat) : Nat :=
  bitdiv size 16 + (if bitmod size 16 ≠ 0 then 1 else 0)

/-- Model of the external `scrambledfile` collaborator (the keyed,
transformed stream).  `readintAt p` is the little-endian u32 the stream
yields at absolute position `p` (a read advances the cursor by 4);
`readByteAt p` is the byte yielded at `p` (advances by 1);
`readstringAt p` is the delimited string read starting at `p` together
with the cursor position the primitive leaves behind (the spec leaves
the exact termination convention to the external contract, so both are
abstract).  `key` is the transform key set by `setkey`. -/
structure ScrambledFile where
  key : Nat
  readintAt : Nat → Nat
  readByteAt : Nat → Nat
  readstringAt : Nat → String × Nat

/-- Model of `scrambledfile::setkey`. -/
def ScrambledFile.setkey (sf : ScrambledFile) (k : Nat) : ScrambledFile :=
  { sf with key := k }

/-- Model of `hpientry` (declared in a header not under src/; fields per
the spec data model and their uses in hpifile.cpp).  `uid` models C++
pointer identity: each `new hpientry` allocation gets a fresh serial
number.  `file` is the identity of the owning archive (the `hpifile*`
back-reference, compared with `this` in `getdata`). -/
inductive hpientry : Type where
  | mk : (uid : Nat) → (file : Nat) → (parentname : String) → (name : String) →
      (offset : Nat) → (size : Nat) → (directory : Bool) →
      (subdir : List hpientry) → hpientry

def hpientry.uid : hpientry → Nat
  | .mk u _ _ _ _ _ _ _ => u

def hpientry.file : hpientry → Nat
  | .mk _ f _ _ _ _ _ _ => f

def hpientry.parentname : hpientry → String
  | .mk _ _ p _ _ _ _ _ => p

def hpientry.name : hpientry → String
  | .mk _ _ _ n _ _ _ _ => n

def hpientry.offset : hpientry → Nat
  | .mk _ _ _ _ o _ _ _ => o

def hpientry.size : hpientry → Nat
  | .mk _ _ _ _ _ s _ _ => s

def hpientry.directory : hpientry → Bool
  | .mk _ _ _ _ _ _ d _ => d

def hpientry.subdir : hpientry → List hpientry
  | .mk _ _ _ _ _ _ _ c => c

/-- Errors thrown during tree construction.  `unknownEntryType` models
`throw std::runtime_error("Unknown entry type")`;  `fuelExhausted` is an
artifact of the embedding: the C++ recursion over arbitrary on-disk
offsets has no termination guarantee (a cyclic offset graph would
recurse forever), so the embedding carries fuel. -/
inductive WalkErr : Type where
  | unknownEntryType : WalkErr
  | fuelExhausted : WalkErr
deriving DecidableEq

/-- Mutable archive-construction state: the archive-wide flat list
(`hpifile::flatlist`, in push_back order) and the next fresh allocation
serial (models the heap giving every `new hpientry` a distinct
address). -/
structure WalkSt where
  flatlist : List hpientry
  nextUid : Nat

/-- Model of `hpifile::fileinfo`.  The caller has just seeked to the
record's `infooffset`, passed here as the cursor `c`; the C++ `offset`
parameter is unused by the body, which reads `doff` and `dsize` at the
current position, allocates the entry, and appends it to the flat
list.  Returns the entry, the new state and the cursor after the two
u32 reads. -/
def hpifile.fileinfo (sf : ScrambledFile) (arch : Nat)
    (parentname nm : String) (c : Nat) (st : WalkSt) :
    hpientry × WalkSt × Nat :=
  let doff := sf.readintAt c
  let dsize := sf.readintAt (c + 4)
  let ret : hpientry := .mk st.nextUid arch parentname nm doff dsize false []
  (ret, ⟨st.flatlist ++ [ret], st.nextUid + 1⟩, c + 8)

mutual

/-- Model of `hpifile::dirinfo`.  Seeks to `offset`, reads the entry
count and the ignored u32, runs the record loop, then allocates the
directory entry with offset 0 and size 0, marks it a directory, stores
the children, and appends it to the flat list.  Returns the entry, the
new state and the final stream cursor. -/
def hpifile.dirinfo (fu : Nat) (sf : ScrambledFile) (arch : Nat)
    (parentname dirname : String) (offset : Nat) (st : WalkSt) :
    Except WalkErr (hpientry × WalkSt × Nat) :=
  match fu with
  | 0 => .error .fuelExhausted
  | fu' + 1 =>
    let newparent := if parentname = "" then dirname
      else parentname ++ PATHSEPARATOR ++ dirname
    let entries := sf.readintAt offset
    let _unknown := sf.readintAt (offset + 4)
    match hpifile.dirloop fu' sf arch newparent entries (offset + 8) st with
    | .error e => .error e
    | .ok (listing, st1, c1) =>
      let ret : hpientry := .mk st1.nextUid arch parentname dirname 0 0 true listing
      .ok (ret, ⟨st1.flatlist ++ [ret], st1.nextUid + 1⟩, c1)
termination_by structural fu

/-- Model of the record loop inside `hpifile::dirinfo` (`n` remaining
records, record stream cursor `c`).  Each iteration reads the 9-byte
record, saves the cursor just past it (`currentpos`), seeks to
`nameoffset` and reads the display name, seeks to `infooffset`,
branches on `entrytype` (0 file, 1 recursive subdirectory, anything
else throws), and seeks back to `currentpos` before the next
iteration (the cursor the excursion ended at is discarded). -/
def hpifile.dirloop (fu : Nat) (sf : ScrambledFile) (arch : Nat)
    (newparent : String) (n : Nat) (c : Nat) (st : WalkSt) :
    Except WalkErr (List hpientry × WalkSt × Nat) :=
  match fu with
  | 0 => .error .fuelExhausted
  | fu' + 1 =>
    match n with
    | 0 => .ok ([], st, c)
    | n' + 1 =>
      let nameoffset := sf.readintAt c
      let infooffset := sf.readintAt (c + 4)
      let entrytype := sf.readByteAt (c + 8)
      let currentpos := c + 9
      let itemname := (sf.readstringAt nameoffset).1
      match entrytype with
      | 0 =>
        match hpifile.fileinfo sf arch newparent itemname infooffset st with
        | (child, st1, _cf) =>
          match hpifile.dirloop fu' sf arch newparent n' currentpos st1 with
          | .error e => .error e
          | .ok (rest, st2, c2) => .ok (child :: rest, st2, c2)
      | 1 =>
        match hpifile.dirinfo fu' sf arch newparent itemname infooffset st with
        | .error e => .error e
        | .ok (child, st1, _cd) =>
          match hpifile.dirloop fu' sf arch newparent n' currentpos st1 with
          | .error e => .error e
          | .ok (rest, st2, c2) => .ok (child :: rest, st2, c2)
      | _ => .error .unknownEntryType
termination_by structural fu

end

/-- Diagnostics printed to stderr on the header-validation failure
paths (the archive object still exists, with `valid = false`). -/
inductive OpenDiag : Type where
  | invalidSignature : Nat → OpenDiag
  | subtypeSavegame : Nat → OpenDiag
  | subtypeHapi2 : OpenDiag
  | subtypeUnknown : Nat → OpenDiag
deriving DecidableEq

/-- Model of the `hpifile` object: owning-archive identity (the `this`
pointer), the owned stream, the `valid` flag, the header fields, the
root entry produced by the walk (absent when validation failed before
the walk) and the flat list. -/
structure hpifile : Type where
  id : Nat
  file : ScrambledFile
  valid : Bool
  header_hapimagic : Nat
  header_bankmagic : Nat
  header_offset : Nat
  header_key : Nat
  header_diroffset : Nat
  root : Option hpientry
  flatlist : List hpientry

/-- Outcome of constructing an `hpifile`: `ok` is a validated archive;
`invalid` is a constructed object with `valid = false` plus the stderr
diagnostic (the C++ constructor completes normally on the magic-check
failure paths); `thrown` models an exception escaping the constructor
(no object is ever exposed to the caller). -/
inductive OpenResult : Type where
  | ok : hpifile → OpenResult
  | invalid : hpifile → OpenDiag → OpenResult
  | thrown : WalkErr → OpenResult

/-- Model of `hpifile::validate` (reached from the constructors with a
fresh stream whose cursor is at 0).  Reads the five header u32s in
order, classifying `magic1`/`magic2` failures exactly as the C++ cerr
branches do; on the success path sets the stream key, walks the
directory graph from `header_diroffset`, marks the archive valid and
appends the walk's root entry to the flat list.  Header fields the C++
leaves uninitialised on early exits are modelled as 0. -/
def hpifile.validate (archid : Nat) (sf : ScrambledFile) (fu : Nat) : OpenResult :=
  let m1 := sf.readintAt 0
  if m1 ≠ HAPI_MAGIC then
    .invalid ⟨archid, sf, false, m1, 0, 0, 0, 0, none, []⟩ (.invalidSignature m1)
  else
    let m2 := sf.readintAt 4
    if m2 ≠ HAPI_VERSION_MAGIC then
      .invalid ⟨archid, sf, false, m1, m2, 0, 0, 0, none, []⟩
        (if m2 = BANK_MAGIC then .subtypeSavegame m2
         else if m2 = HAPI2_VERSION_MAGIC then .subtypeHapi2
         else .subtypeUnknown m2)
    else
      let hoff := sf.readintAt 8
      let hkey := sf.readintAt 12
      let hdir := sf.readintAt 16
      let sf1 := sf.setkey hkey
      match hpifile.dirinfo fu sf1 archid "" "" hdir ⟨[], 0⟩ with
      | .error e => .thrown e
      | .ok (root, st, _c) =>
        .ok ⟨archid, sf1, true, m1, m2, hoff, hkey, hdir, some root,
             st.flatlist ++ [root]⟩

/-- Model of opening an archive (the `hpifile` constructors): allocate
the stream, then `validate`; an exception thrown during the walk
escapes the constructor, so the caller receives no object. -/
def hpiopen (archid : Nat) (sf : ScrambledFile) (fu : Nat) : OpenResult :=
  hpifile.validate archid sf fu

/-- Stderr diagnostic of an open outcome, if any. -/
def openDiag : OpenResult → Option OpenDiag
  | .invalid _ d => some d
  | _ => none

/-- Flat list of an open outcome (empty unless construction succeeded
and validated). -/
def openFlat : OpenResult → List hpientry
  | .ok h => h.flatlist
  | _ => []

/-- Root entry of an open outcome, if any. -/
def openRoot : OpenResult → Option hpientry
  | .ok h => h.root
  | _ => none

/-- Whether open produced a validated archive. -/
def openIsOk : OpenResult → Bool
  | .ok _ => true
  | _ => false

/-- Failure modes of `getdata`.  In the C++ each corresponds to a
distinct `return 0` path: the first two print a cerr message, the third
(a chunk the codec rejects) returns 0 silently. -/
inductive GetdataErr : Type where
  | entryMismatch : GetdataErr
  | notAFile : GetdataErr
  | corruptChunk : GetdataErr
deriving DecidableEq

/-- Outcome of `getdata`: the surfaced result (decompressed bytes, or
the failure), the final stream cursor, and the trace of bounded ranges
(start offset, byte length) handed to the external chunk codec — one
per `substream` construction in the C++. -/
structure GetdataOut : Type where
  res : Except GetdataErr (List Nat)
  cursor : Nat
  calls : List (Nat × Nat)

/-- The u32 count the C++ `getdata` returns: the accumulated byte count
`j` on success, 0 on every failure path. -/
def retcount (r : Except GetdataErr (List Nat)) : Nat :=
  match r with
  | .ok l => l.length
  | .error _ => 0

/-- Error of a `getdata` result, if any. -/
def gerrOf (r : Except GetdataErr (List Nat)) : Option GetdataErr :=
  match r with
  | .ok _ => none
  | .error e => some e

/-- Model of the chunk loop in `hpifile::getdata`.  `co` is
`chunkoffset`, `sizes` the remaining entries of the chunk-size table,
`j` the C++ running counter (both the write position in the output
buffer and the offset of the next bounded sub-stream relative to
`co`), `acc` the bytes accumulated so far (so `j = acc.length` at the
top call), `calls` the codec-call trace, `ctab` the cursor left after
reading the chunk-size table.  A chunk the codec rejects aborts the
loop, surfacing the silent `return 0`. -/
def getdataloop (codec : Nat → Nat → Option (List Nat)) (co : Nat) :
    List Nat → Nat → List Nat → List (Nat × Nat) → Nat → GetdataOut
  | [], _j, acc, calls, ctab => ⟨.ok acc, ctab, calls⟩
  | cs :: rest, j, acc, calls, ctab =>
    match codec (co + j) cs with
    | some out =>
      getdataloop codec co rest (j + out.length) (acc ++ out)
        (calls ++ [(co + j, cs)]) ctab
    | none => ⟨.error .corruptChunk, ctab, calls ++ [(co + j, cs)]⟩

/-- Concrete stream: a well-formed archive whose root directory has no
entries (header at 0, directory record block at 20). -/
def sfEmptyRoot : ScrambledFile where
  key := 0
  readintAt := fun p =>
    if p = 0 then HAPI_MAGIC
    else if p = 4 then HAPI_VERSION_MAGIC
    else if p = 8 then 32
    else if p = 12 then 7
    else if p = 16 then 20
    else 0
  readByteAt := fun _ => 0
  readstringAt := fun p => ("", p)

/-- Concrete stream: a well-formed archive whose root directory holds a
single file entry (name at 100, file info at 40, data at 500, 5 bytes). -/
def sfOneFile : ScrambledFile where
  key := 0
  readintAt := fun p =>
    if p = 0 then HAPI_MAGIC
    else if p = 4 then HAPI_VERSION_MAGIC
    else if p = 8 then 32
    else if p = 12 then 7
    else if p = 16 then 20
    else if p = 20 then 1
    else if p = 28 then 100
    else if p = 32 then 40
    else if p = 40 then 500
    else if p = 44 then 5
    else 0
  readByteAt := fun p => if p = 36 then 0 else 9
  readstringAt := fun p => if p = 100 then ("f", 101) else ("", p)

/-- Concrete stream: like `sfOneFile` but the record's entry-type byte
is 7, which is neither 0 nor 1. -/
def sfBadType : ScrambledFile where
  key := 0
  readintAt := sfOneFile.readintAt
  readByteAt := fun p => if p = 36 then 7 else 9
  readstringAt := sfOneFile.readstringAt

/-- Model of `hpifile::getdata`.  Checks the back-reference and the
directory flag (each failing path returns count 0 without touching
the stream), computes the chunk count from the entry size, seeks to
`entry.offset` and reads the chunk-size table, then drives the codec
over successive bounded sub-streams starting at
`chunkoffset = entry.offset + 4 * chunknum`, the `i`-th spanning
`chunksizes[i]` bytes at offset `chunkoffset + j`. -/
def hpifile.getdata (h : hpifile) (codec : Nat → Nat → Option (List Nat))
    (he : hpientry) (cursor : Nat) : GetdataOut :=
  if he.file ≠ h.id then ⟨.error .entryMismatch, cursor, []⟩
  else if he.directory then ⟨.error .notAFile, cursor, []⟩
  else
    let chunknum := chunknumOf he.size
    let chunksizes := (List.range chunknum).map
      (fun i => h.file.readintAt (he.offset + 4 * i))
    let chunkoffset := he.offset + chunknum * 4
    getdataloop codec chunkoffset chunksizes 0 [] [] (he.offset + 4 * chunknum)

/-- Concrete stream for `getdata` tests: a chunk-size table at offset
500 holding the stored sizes 10 and 7. -/
def sfChunks : ScrambledFile where
  key := 0
  readintAt := fun p => if p = 500 then 10 else if p = 504 then 7 else 0
  readByteAt := fun _ => 0
  readstringAt := fun p => ("", p)

/-- Concrete validated archive (identity 0) owning `sfChunks`. -/
def hChunks : hpifile :=
  ⟨0, sfChunks, true, HAPI_MAGIC, HAPI_VERSION_MAGIC, 32, 7, 20, none, []⟩

/-- Concrete file entry of `hChunks`: 65537 uncompressed bytes, so two
chunks, with its chunk-size table at offset 500. -/
def heTwoChunks : hpientry := .mk 0 0 "" "x" 500 65537 false []

/-- Concrete file entry of `hChunks`: 5 uncompressed bytes (one chunk). -/
def heSmall : hpientry := .mk 0 0 "" "y" 500 5 false []

/-- Concrete directory entry of `hChunks`. -/
def heDirEnt : hpientry := .mk 0 0 "" "d" 0 0 true []

/-- Concrete entry whose back-reference (archive identity 1) does not
match `hChunks`. -/
def heForeign : hpientry := .mk 0 1 "" "x" 500 5 false []

/-- Concrete codec: decompresses the chunk at offset 508 to 3 bytes and
any other valid range to 1 byte. -/
def codecShrink : Nat → Nat → Option (List Nat) :=
  fun off _ => if off = 508 then some [9, 9, 9] else some [1]

/-- Concrete codec: decompresses any range to the 5 bytes 1..5. -/
def codecFive : Nat → Nat → Option (List Nat) :=
  fun _ _ => some [1, 2, 3, 4, 5]

/-- Concrete codec that rejects every range. -/
def codecReject : Nat → Nat → Option (List Nat) := fun _ _ => none

/-- Sum of the lengths of the first `k` codec outputs; this is the
value of the running counter `j` when the loop reaches chunk `k`. -/
def presum (outs : Nat → List Nat) : Nat → Nat
  | 0 => 0
  | k + 1 => presum outs k + (outs k).length

/-- Concatenation of the first `n` codec outputs. -/
def catOuts (outs : Nat → List Nat) : Nat → List Nat
  | 0 => []
  | n + 1 => catOuts outs n ++ outs n

lemma presum_succ_shift (outs : Nat → List Nat) (k : Nat) :
    (outs 0).length + presum (fun m => outs (m + 1)) k = presum outs (k + 1) := by
  induction k with
  | zero => simp [presum]
  | succ k ih =>
    show (outs 0).length +
        (presum (fun m => outs (m + 1)) k + (outs (k + 1)).length) =
      presum outs (k + 1) + (outs (k + 1)).length
    rw [← Nat.add_assoc, ih]

lemma catOuts_succ_shift (outs : Nat → List Nat) (n : Nat) :
    outs 0 ++ catOuts (fun m => outs (m + 1)) n = catOuts outs (n + 1) := by
  induction n with
  | zero => simp [catOuts]
  | succ n ih =>
    show outs 0 ++ (catOuts (fun m => outs (m + 1)) n ++ outs (n + 1)) = _
    rw [← List.append_assoc, ih]
    rfl

lemma catOuts_length (outs : Nat → List Nat) (n : Nat) :
    (catOuts outs n).length = presum outs n := by
  induction n with
  | zero => rfl
  | succ n ih => simp [catOuts, presum, ih]

/-- Success characterisation of the chunk loop: if the codec accepts
every remaining bounded range (the `k`-th starting `presum outs k`
bytes past the running position), the loop returns the concatenated
outputs, leaves the cursor after the chunk-size table, and has made one
codec call per chunk. -/
lemma getdataloop_ok (codec : Nat → Nat → Option (List Nat)) (co : Nat) :
    ∀ (sizes : List Nat) (outs : Nat → List Nat) (j : Nat) (acc : List Nat)
      (calls : List (Nat × Nat)) (ctab : Nat),
      (∀ k cs, sizes.get? k = some cs →
        codec (co + j + presum outs k) cs = some (outs k)) →
      (getdataloop codec co sizes j acc calls ctab).res =
          .ok (acc ++ catOuts outs sizes.length) ∧
        (getdataloop codec co sizes j acc calls ctab).cursor = ctab ∧
        (getdataloop codec co sizes j acc calls ctab).calls.length =
          calls.length + sizes.length := by
  intro sizes
  induction sizes with
  | nil =>
    intro outs j acc calls ctab _
    simp [getdataloop, catOuts]
  | cons cs rest ih =>
    intro outs j acc calls ctab hc
    have h0 := hc 0 cs rfl
    simp only [presum, Nat.add_zero] at h0
    have hrest : ∀ k csk, rest.get? k = some csk →
        codec (co + (j + (outs 0).length) + presum (fun m => outs (m + 1)) k) csk =
          some (outs (k + 1)) := by
      intro k csk hk
      have := hc (k + 1) csk hk
      rw [← presum_succ_shift outs k] at this
      convert this using 2
      omega
    have := ih (fun m => outs (m + 1)) (j + (outs 0).length) (acc ++ outs 0)
      (calls ++ [(co + j, cs)]) ctab hrest
    simp only [getdataloop, h0]
    refine ⟨?_, this.2.1, ?_⟩
    · rw [this.1, List.append_assoc, catOuts_succ_shift]
      rfl
    · rw [this.2.2]
      simp
      omega

/-- Failure characterisation of the chunk loop: if the codec accepts
the first `i` remaining ranges and rejects the `i`-th, the loop aborts
with `corruptChunk`, and exactly `i + 1` codec calls were made (later
chunks are never handed to the codec). -/
lemma getdataloop_fail (codec : Nat → Nat → Option (List Nat)) (co : Nat) :
    ∀ (sizes : List Nat) (outs : Nat → List Nat) (i j : Nat) (acc : List Nat)
      (calls : List (Nat × Nat)) (ctab : Nat) (cs : Nat),
      (∀ k csk, k < i → sizes.get? k = some csk →
        codec (co + j + presum outs k) csk = some (outs k)) →
      sizes.get? i = some cs →
      codec (co + j + presum outs i) cs = none →
      (getdataloop codec co sizes j acc calls ctab).res = .error .corruptChunk ∧
        (getdataloop codec co sizes j acc calls ctab).cursor = ctab ∧
        (getdataloop codec co sizes j acc calls ctab).calls.length =
          calls.length + i + 1 := by
  intro sizes
  induction sizes with
  | nil =>
    intro outs i j acc calls ctab cs _ hget
    simp at hget
  | cons c0 rest ih =>
    intro outs i j acc calls ctab cs hprev hget hbad
    cases i with
    | zero =>
      have hcs : cs = c0 := by simpa using hget.symm
      subst hcs
      simp only [presum, Nat.add_zero] at hbad
      simp [getdataloop, hbad]
    | succ i' =>
      have h0 := hprev 0 c0 (Nat.succ_pos i') rfl
      simp only [presum, Nat.add_zero] at h0
      have hprev' : ∀ k csk, k < i' → rest.get? k = some csk →
          codec (co + (j + (outs 0).length) + presum (fun m => outs (m + 1)) k) csk =
            some (outs (k + 1)) := by
        intro k csk hk hkget
        have := hprev (k + 1) csk (by omega) hkget
        rw [← presum_succ_shift outs k] at this
        convert this using 2
        omega
      have hbad' : codec (co + (j + (outs 0).length) +
          presum (fun m => outs (m + 1)) i') cs = none := by
        rw [← presum_succ_shift outs i'] at hbad
        convert hbad using 2
        omega
      have := ih (fun m => outs (m + 1)) i' (j + (outs 0).length) (acc ++ outs 0)
        (calls ++ [(co + j, c0)]) ctab cs hprev' hget hbad'
      simp only [getdataloop, h0]
      refine ⟨this.1, this.2.1, ?_⟩
      rw [this.2.2]
      simp
      omega

/-- Arithmetic core of C3: when each of the `chunknumOf size` chunks
decompresses to a full 2^16-byte unit except a final partial one, the
decompressed lengths sum to `size`. -/
lemma presum_chunknum (size : Nat) (outs : Nat → List Nat)
    (hlen : ∀ i, i < chunknumOf size →
      (outs i).length = if i + 1 = chunknumOf size then size - 65536 * i else 65536) :
    presum outs (chunknumOf size) = size := by
  have hfull : ∀ k, k ≤ chunknumOf size →
      (∀ m, m + 1 < chunknumOf size → (outs m).length = 65536) →
      presum outs k = 65536 * k ∨ k = chunknumOf size := by
    intro k hk hful
    induction k with
    | zero => exact Or.inl rfl
    | succ k ihk =>
      rcases ihk (by omega) with h | h
      · by_cases hkn : k + 1 = chunknumOf size
        · exact Or.inr hkn
        · left
          have : (outs k).length = 65536 := hful k (by omega)
          simp [presum, h, this]
          ring
      · omega
  have hdm := Nat.div_add_mod size 65536
  have hmlt : size % 65536 < 65536 := Nat.mod_lt _ (by norm_num)
  have hcn : chunknumOf size = size / 65536 + (if size % 65536 ≠ 0 then 1 else 0) := by
    simp [chunknumOf, bitdiv, bitmod]
  by_cases h0 : size = 0
  · subst h0
    simp [chunknumOf, bitdiv, bitmod, presum]
  · have hge : 1 ≤ chunknumOf size := by
      rw [hcn]
      by_cases hr : size % 65536 = 0
      · simp [hr]
        omega
      · simp [hr]
    obtain ⟨n', hn'⟩ : ∃ n', chunknumOf size = n' + 1 := ⟨chunknumOf size - 1, by omega⟩
    have hfulfacts : ∀ m, m + 1 < chunknumOf size → (outs m).length = 65536 := by
      intro m hm
      have := hlen m (by omega)
      simp [Nat.ne_of_lt hm] at this
      exact this
    have hpren' : presum outs n' = 65536 * n' := by
      rcases hfull n' (by omega) hfulfacts with h | h
      · exact h
      · omega
    have hlast := hlen n' (by omega)
    rw [if_pos (by omega)] at hlast
    have hbound : 65536 * n' ≤ size := by
      rw [hcn] at hn'
      by_cases hr : size % 65536 = 0
      · simp [hr] at hn'
        calc 65536 * n' ≤ 65536 * (size / 65536) := by
              have : n' ≤ size / 65536 := by omega
              exact Nat.mul_le_mul_left _ this
          _ ≤ size := by omega
      · simp [hr] at hn'
        calc 65536 * n' = 65536 * (size / 65536) := by rw [hn']
          _ ≤ size := by omega
    rw [hn']
    show presum outs n' + (outs n').length = size
    rw [hpren', hlast]
    omega

lemma presum_of_full (outs : Nat → List Nat) (n : Nat)
    (hfull : ∀ m, m + 1 < n → (outs m).length = 65536) :
    ∀ k, k < n → presum outs k = 65536 * k := by
  intro k
  induction k with
  | zero => intro _; rfl
  | succ k ih =>
    intro hk
    have h1 : presum outs k = 65536 * k := ih (by omega)
    have h2 : (outs k).length = 65536 := hfull k (by omega)
    show presum outs k + (outs k).length = 65536 * (k + 1)
    rw [h1, h2]
    ring

lemma range_map_get (f : Nat → Nat) (k : Nat) (cs : Nat) (n : Nat)
    (h : ((List.range n).map f).get? k = some cs) : k < n ∧ cs = f k := by
  rw [List.get?_eq_getElem?] at h
  simp only [List.getElem?_map] at h
  by_cases hk : k < n
  · simp [List.getElem?_range, hk] at h
    exact ⟨hk, h.symm⟩
  · rw [List.getElem?_eq_none (by simpa using hk)] at h
    simp at h

lemma range_map_get_eq (f : Nat → Nat) (n k : Nat) (hk : k < n) :
    ((List.range n).map f).get? k = some (f k) := by
  rw [List.get?_eq_getElem?]
  simp [List.getElem?_map, List.getElem?_range, hk]

/-- Unfolding of `getdata` past its satisfied preconditions. -/
lemma getdata_eq_loop (h : hpifile) (codec : Nat → Nat → Option (List Nat))
    (he : hpientry) (cursor : Nat)
    (hfile : he.file = h.id) (hdir : he.directory = false) :
    h.getdata codec he cursor =
      getdataloop codec (he.offset + chunknumOf he.size * 4)
        ((List.range (chunknumOf he.size)).map
          (fun i => h.file.readintAt (he.offset + 4 * i)))
        0 [] [] (he.offset + 4 * chunknumOf he.size) := by
  unfold hpifile.getdata
  simp [hfile, hdir]

/-- C3: for every file entry of a well-formed archive — the entry
belongs to this archive, is not a directory, and the codec accepts
every bounded range `getdata` hands it, decompressing each chunk to a
full 2^16-byte unit except a final partial one — `getdata` succeeds,
the concatenation of the decompressed chunk outputs is exactly
`entry.size` bytes long, and that is the count the function returns. -/
theorem getdata_wellformed_returns_size (h : hpifile)
    (codec : Nat → Nat → Option (List Nat)) (he : hpientry) (cursor : Nat)
    (outs : Nat → List Nat)
    (hfile : he.file = h.id) (hdir : he.directory = false)
    (hvalid : ∀ i, i < chunknumOf he.size →
      codec (he.offset + chunknumOf he.size * 4 + 65536 * i)
        (h.file.readintAt (he.offset + 4 * i)) = some (outs i))
    (hlen : ∀ i, i < chunknumOf he.size →
      (outs i).length =
        if i + 1 = chunknumOf he.size then he.size - 65536 * i else 65536) :
    ∃ out, (h.getdata codec he cursor).res = .ok out ∧ out.length = he.size ∧
      retcount (h.getdata codec he cursor).res = he.size := by
  rw [getdata_eq_loop h codec he cursor hfile hdir]
  have hfull : ∀ m, m + 1 < chunknumOf he.size → (outs m).length = 65536 := by
    intro m hm
    have := hlen m (by omega)
    rwa [if_neg (by omega)] at this
  have hc : ∀ k cs,
      (((List.range (chunknumOf he.size)).map
        (fun i => h.file.readintAt (he.offset + 4 * i))).get? k) = some cs →
      codec (he.offset + chunknumOf he.size * 4 + 0 + presum outs k) cs =
        some (outs k) := by
    intro k cs hk
    obtain ⟨hklt, rfl⟩ := range_map_get _ k cs _ hk
    rw [presum_of_full outs (chunknumOf he.size) hfull k hklt]
    have := hvalid k hklt
    simpa using this
  obtain ⟨hres, _hcur, _hcl⟩ := getdataloop_ok codec
    (he.offset + chunknumOf he.size * 4)
    ((List.range (chunknumOf he.size)).map
      (fun i => h.file.readintAt (he.offset + 4 * i)))
    outs 0 [] [] (he.offset + 4 * chunknumOf he.size) hc
  simp only [List.length_map, List.length_range, List.nil_append] at hres
  have hsz : (catOuts outs (chunknumOf he.size)).length = he.size := by
    rw [catOuts_length]
    exact presum_chunknum he.size outs hlen
  exact ⟨catOuts outs (chunknumOf he.size), hres, hsz, by rw [hres]; exact hsz⟩

/-- Witness for C3: a concrete one-chunk entry of 5 bytes whose chunk
decompresses to 5 bytes. -/
theorem getdata_wellformed_returns_size_witness :
    ∃ out, (hChunks.getdata codecFive heSmall 0).res = .ok out ∧
      out.length = heSmall.size ∧
      retcount (hChunks.getdata codecFive heSmall 0).res = heSmall.size :=
  getdata_wellformed_returns_size hChunks codecFive heSmall 0
    (fun _ => [1, 2, 3, 4, 5]) rfl rfl
    (by
      intro i hi
      have h1 : chunknumOf heSmall.size = 1 := by decide
      have h0 : i = 0 := by omega
      subst h0
      rfl)
    (by
      intro i hi
      have h1 : chunknumOf heSmall.size = 1 := by decide
      have h0 : i = 0 := by omega
      subst h0
      decide)

/-- C4: if the codec rejects the `i`-th bounded range `getdata` hands
it (all earlier ranges being accepted), the whole call aborts with
`corruptChunk`, the returned byte count is 0 — none of the bytes
decoded from earlier chunks are surfaced — and the codec-call trace has
exactly `i + 1` entries, so chunks after `i` are never processed. -/
theorem getdata_corrupt_chunk_aborts (h : hpifile)
    (codec : Nat → Nat → Option (List Nat)) (he : hpientry) (cursor : Nat)
    (outs : Nat → List Nat) (i : Nat)
    (hfile : he.file = h.id) (hdir : he.directory = false)
    (hi : i < chunknumOf he.size)
    (hvalid : ∀ k, k < i →
      codec (he.offset + chunknumOf he.size * 4 + presum outs k)
        (h.file.readintAt (he.offset + 4 * k)) = some (outs k))
    (hbad : codec (he.offset + chunknumOf he.size * 4 + presum outs i)
        (h.file.readintAt (he.offset + 4 * i)) = none) :
    (h.getdata codec he cursor).res = .error .corruptChunk ∧
      retcount (h.getdata codec he cursor).res = 0 ∧
      (h.getdata codec he cursor).calls.length = i + 1 := by
  rw [getdata_eq_loop h codec he cursor hfile hdir]
  have hprev : ∀ k csk, k < i →
      (((List.range (chunknumOf he.size)).map
        (fun m => h.file.readintAt (he.offset + 4 * m))).get? k) = some csk →
      codec (he.offset + chunknumOf he.size * 4 + 0 + presum outs k) csk =
        some (outs k) := by
    intro k csk hk hget
    obtain ⟨_, rfl⟩ := range_map_get _ k csk _ hget
    have := hvalid k hk
    simpa using this
  have hget : (((List.range (chunknumOf he.size)).map
      (fun m => h.file.readintAt (he.offset + 4 * m))).get? i) =
      some (h.file.readintAt (he.offset + 4 * i)) :=
    range_map_get_eq _ _ i hi
  have hbad' : codec (he.offset + chunknumOf he.size * 4 + 0 + presum outs i)
      (h.file.readintAt (he.offset + 4 * i)) = none := by
    simpa using hbad
  obtain ⟨hres, _hcur, hcalls⟩ := getdataloop_fail codec
    (he.offset + chunknumOf he.size * 4)
    ((List.range (chunknumOf he.size)).map
      (fun m => h.file.readintAt (he.offset + 4 * m)))
    outs i 0 [] [] (he.offset + 4 * chunknumOf he.size)
    (h.file.readintAt (he.offset + 4 * i)) hprev hget hbad'
  refine ⟨hres, by rw [hres]; rfl, ?_⟩
  rw [hcalls]
  simp

/-- Witness for C4: the all-rejecting codec on a concrete two-chunk
entry fails on chunk 0 with a single codec call. -/
theorem getdata_corrupt_chunk_aborts_witness :
    (hChunks.getdata codecReject heTwoChunks 0).res = .error .corruptChunk ∧
      retcount (hChunks.getdata codecReject heTwoChunks 0).res = 0 ∧
      (hChunks.getdata codecReject heTwoChunks 0).calls.length = 0 + 1 :=
  getdata_corrupt_chunk_aborts hChunks codecReject heTwoChunks 0
    (fun _ => []) 0 rfl rfl (by decide)
    (fun k hk => absurd hk (Nat.not_lt_zero k)) rfl

/-- Flat-list growth discipline of the walk: it only appends, the
appended entries carry strictly increasing fresh serials drawn from
`[st.nextUid, st'.nextUid)`, and every directory entry among them has
offset 0 and size 0. -/
def FlatExt (st st' : WalkSt) (new : List hpientry) : Prop :=
  st'.flatlist = st.flatlist ++ new ∧
  st.nextUid ≤ st'.nextUid ∧
  (new.map hpientry.uid).Pairwise (· < ·) ∧
  (∀ e ∈ new, st.nextUid ≤ e.uid ∧ e.uid < st'.nextUid) ∧
  (∀ e ∈ new, e.directory = true → e.offset = 0 ∧ e.size = 0)

lemma flatExt_nil (st : WalkSt) : FlatExt st st [] :=
  ⟨by simp, le_refl _, by simp, by simp, by simp⟩

lemma flatExt_trans {st1 st2 st3 : WalkSt} {n1 n2 : List hpientry}
    (h1 : FlatExt st1 st2 n1) (h2 : FlatExt st2 st3 n2) :
    FlatExt st1 st3 (n1 ++ n2) := by
  obtain ⟨hf1, hu1, hp1, hb1, hd1⟩ := h1
  obtain ⟨hf2, hu2, hp2, hb2, hd2⟩ := h2
  refine ⟨by rw [hf2, hf1, List.append_assoc], le_trans hu1 hu2, ?_, ?_, ?_⟩
  · rw [List.map_append, List.pairwise_append]
    refine ⟨hp1, hp2, ?_⟩
    intro a ha b hb
    simp only [List.mem_map] at ha hb
    obtain ⟨ea, hea, rfl⟩ := ha
    obtain ⟨eb, heb, rfl⟩ := hb
    exact lt_of_lt_of_le (hb1 ea hea).2 (hb2 eb heb).1
  · intro e he
    rcases List.mem_append.mp he with h | h
    · exact ⟨(hb1 e h).1, lt_of_lt_of_le (hb1 e h).2 hu2⟩
    · exact ⟨le_trans hu1 (hb2 e h).1, (hb2 e h).2⟩
  · intro e he
    rcases List.mem_append.mp he with h | h
    · exact hd1 e h
    · exact hd2 e h

lemma flatExt_push (st : WalkSt) (e : hpientry)
    (huid : e.uid = st.nextUid)
    (hdir : e.directory = true → e.offset = 0 ∧ e.size = 0) :
    FlatExt st ⟨st.flatlist ++ [e], st.nextUid + 1⟩ [e] := by
  refine ⟨rfl, Nat.le_succ _, by simp, ?_, ?_⟩
  · intro x hx
    rw [List.mem_singleton] at hx
    subst hx
    refine ⟨le_of_eq huid.symm, ?_⟩
    show x.uid < st.nextUid + 1
    omega
  · intro x hx
    rw [List.mem_singleton] at hx
    subst hx
    exact hdir

/-- Joint invariant of the directory walk, by induction on fuel.  A
successful `dirloop` extends the flat list per `FlatExt` and ends with
the cursor at `c + 9 * n` — 9 bytes per record, whatever positions the
name/info excursions and subtree walks visited in between, because the
saved cursor is restored after every record.  A successful `dirinfo`
additionally appends its own directory entry last, with the newest
serial, and ends at `offset + 8 + 9 * entries`. -/
lemma walk_invariant : ∀ fu : Nat,
    (∀ sf arch pn dn off st r st' c',
      hpifile.dirinfo fu sf arch pn dn off st = .ok (r, st', c') →
      (∃ new, FlatExt st st' new ∧ new.getLast? = some r ∧
        r.uid + 1 = st'.nextUid) ∧
      c' = off + 8 + 9 * sf.readintAt off) ∧
    (∀ sf arch np n c st l st' c',
      hpifile.dirloop fu sf arch np n c st = .ok (l, st', c') →
      (∃ new, FlatExt st st' new) ∧ c' = c + 9 * n) := by
  intro fu
  induction fu with
  | zero =>
    constructor
    · intro sf arch pn dn off st r st' c' hok
      simp [hpifile.dirinfo] at hok
    · intro sf arch np n c st l st' c' hok
      simp [hpifile.dirloop] at hok
  | succ fu ih =>
    obtain ⟨ihd, ihl⟩ := ih
    constructor
    · intro sf arch pn dn off st r st' c' hok
      simp only [hpifile.dirinfo] at hok
      split at hok
      · exact absurd hok (by simp)
      · rename_i listing st1 c1 hl
        simp only [Except.ok.injEq, Prod.mk.injEq] at hok
        obtain ⟨hr, hst, hc⟩ := hok
        obtain ⟨⟨new1, hext⟩, hcur⟩ := ihl _ _ _ _ _ _ _ _ _ hl
        subst hr hst hc
        constructor
        · refine ⟨new1 ++ [.mk st1.nextUid arch pn dn 0 0 true listing], ?_, ?_, ?_⟩
          · exact flatExt_trans hext
              (flatExt_push st1 _ rfl (by intro _; exact ⟨rfl, rfl⟩))
          · exact List.getLast?_concat _
          · rfl
        · exact hcur
    · intro sf arch np n c st l st' c' hok
      cases n with
      | zero =>
        simp only [hpifile.dirloop, Except.ok.injEq, Prod.mk.injEq] at hok
        obtain ⟨hl, hst, hc⟩ := hok
        subst hl hst hc
        exact ⟨⟨[], flatExt_nil st⟩, by omega⟩
      | succ n' =>
        simp only [hpifile.dirloop] at hok
        split at hok
        · -- entrytype 0: file record
          split at hok
          · exact absurd hok (by simp)
          · rename_i rest st2 c2 hrest
            simp only [Except.ok.injEq, Prod.mk.injEq] at hok
            obtain ⟨hl, hst, hc⟩ := hok
            subst hl hst hc
            obtain ⟨⟨new2, hext2⟩, hcur2⟩ := ihl _ _ _ _ _ _ _ _ _ hrest
            have hext1 : FlatExt st
                (hpifile.fileinfo sf arch np (sf.readstringAt (sf.readintAt c)).1
                  (sf.readintAt (c + 4)) st).2.1
                [(hpifile.fileinfo sf arch np (sf.readstringAt (sf.readintAt c)).1
                  (sf.readintAt (c + 4)) st).1] :=
              flatExt_push st _ rfl
                (by intro hdd; simp [hpifile.fileinfo, hpientry.directory] at hdd)
            exact ⟨⟨_ ++ new2, flatExt_trans hext1 hext2⟩, by omega⟩
        · -- entrytype 1: subdirectory record
          split at hok
          · exact absurd hok (by simp)
          · rename_i child st1 cd hdir
            split at hok
            · exact absurd hok (by simp)
            · rename_i rest st2 c2 hrest
              simp only [Except.ok.injEq, Prod.mk.injEq] at hok
              obtain ⟨hl, hst, hc⟩ := hok
              subst hl hst hc
              obtain ⟨⟨new1, hext1, _, _⟩, _⟩ := ihd _ _ _ _ _ _ _ _ _ hdir
              obtain ⟨⟨new2, hext2⟩, hcur2⟩ := ihl _ _ _ _ _ _ _ _ _ hrest
              exact ⟨⟨new1 ++ new2, flatExt_trans hext1 hext2⟩, by omega⟩
        · -- any other entrytype throws
          exact absurd hok (by simp)

/-- Inversion of a validated open: both magics matched, the walk
succeeded, and the archive's fields come from the header reads, with
the walk's root appended once more to the flat list. -/
lemma validate_ok_elim (archid : Nat) (sf : ScrambledFile) (fu : Nat)
    (h : hpifile) (hok : hpiopen archid sf fu = .ok h) :
    ∃ r st c,
      hpifile.dirinfo fu (sf.setkey (sf.readintAt 12)) archid "" ""
        (sf.readintAt 16) ⟨[], 0⟩ = .ok (r, st, c) ∧
      h.root = some r ∧ h.flatlist = st.flatlist ++ [r] ∧ h.valid = true ∧
      h.id = archid ∧ h.header_offset = sf.readintAt 8 ∧
      h.header_key = sf.readintAt 12 ∧ h.header_diroffset = sf.readintAt 16 ∧
      h.file = sf.setkey (sf.readintAt 12) := by
  simp only [hpiopen, hpifile.validate] at hok
  split at hok
  · exact absurd hok (by simp)
  · split at hok
    · exact absurd hok (by simp)
    · split at hok
      · exact absurd hok (by simp)
      · rename_i root st c hd
        simp only [OpenResult.ok.injEq] at hok
        subst hok
        exact ⟨root, st, c, hd, rfl, rfl, rfl, rfl, rfl, rfl, rfl, rfl⟩

/-- C1 (counterexample): a well-formed archive holding one file is
accepted by open, yet the first element of its flat list is the file
entry — not a directory — while the root entry is a directory, so the
flat list does not begin with the root. -/
theorem flatlist_first_not_root_cex :
    openIsOk (hpiopen 0 sfOneFile 9) = true ∧
    (openFlat (hpiopen 0 sfOneFile 9)).head?.map hpientry.directory =
      some false ∧
    (openRoot (hpiopen 0 sfOneFile 9)).map hpientry.directory = some true := by
  decide

/-- C1 (amended): after a successful open, the archive-wide flat list
is insertion-ordered with the root entry as its last element: each
directory is appended after its children and the root is appended
last. -/
theorem flatlist_last_is_root (archid : Nat) (sf : ScrambledFile) (fu : Nat)
    (h : hpifile) (r : hpientry)
    (hok : hpiopen archid sf fu = .ok h) (hr : h.root = some r) :
    h.flatlist.getLast? = some r := by
  obtain ⟨r0, st, c, _, hroot, hflat, _⟩ := validate_ok_elim archid sf fu h hok
  rw [hroot, Option.some.injEq] at hr
  subst hr
  rw [hflat]
  exact List.getLast?_concat _

/-- Witness for the amended C1 at a concrete archive. -/
theorem flatlist_last_is_root_witness :
    ∃ h r, hpiopen 0 sfEmptyRoot 5 = .ok h ∧ h.root = some r ∧
      h.flatlist.getLast? = some r :=
  ⟨_, _, rfl, rfl, flatlist_last_is_root 0 sfEmptyRoot 5 _ _ rfl rfl⟩

/-- C9: every directory entry of a validated archive (including the
root) is constructed with offset 0 and size 0; a file entry built by
`fileinfo` carries the data offset and data size read at its info
record and is not a directory. -/
theorem directory_entries_have_zero_offset (archid : Nat) (sf : ScrambledFile)
    (fu : Nat) (h : hpifile) (hok : hpiopen archid sf fu = .ok h) :
    (∀ e ∈ h.flatlist, e.directory = true → e.offset = 0 ∧ e.size = 0) ∧
    (∀ sf' arch pn nm c st,
      (hpifile.fileinfo sf' arch pn nm c st).1.offset = sf'.readintAt c ∧
      (hpifile.fileinfo sf' arch pn nm c st).1.size = sf'.readintAt (c + 4) ∧
      (hpifile.fileinfo sf' arch pn nm c st).1.directory = false) := by
  constructor
  · obtain ⟨r0, st, c, hd, _, hflat, _⟩ := validate_ok_elim archid sf fu h hok
    obtain ⟨⟨new, hext, hlast, _⟩, _⟩ :=
      (walk_invariant fu).1 _ _ _ _ _ _ _ _ _ hd
    obtain ⟨hfl, _, _, _, hdirs⟩ := hext
    intro e he
    rw [hflat, hfl, List.nil_append] at he
    rcases List.mem_append.mp he with h1 | h1
    · exact hdirs e h1
    · rw [List.mem_singleton] at h1
      subst h1
      exact hdirs e (List.mem_of_mem_getLast? hlast)
  · intro sf' arch pn nm c st
    exact ⟨rfl, rfl, rfl⟩

/-- Witness for C9 at a concrete archive. -/
theorem directory_entries_have_zero_offset_witness :
    ∃ h, hpiopen 0 sfOneFile 9 = .ok h ∧
      ((∀ e ∈ h.flatlist, e.directory = true → e.offset = 0 ∧ e.size = 0) ∧
       (∀ sf' arch pn nm c st,
         (hpifile.fileinfo sf' arch pn nm c st).1.offset = sf'.readintAt c ∧
         (hpifile.fileinfo sf' arch pn nm c st).1.size =
           sf'.readintAt (c + 4) ∧
         (hpifile.fileinfo sf' arch pn nm c st).1.directory = false)) :=
  ⟨_, rfl, directory_entries_have_zero_offset 0 sfOneFile 9 _ rfl⟩

/-- C10: after every successful open the flat list ends with the root
entry twice — appended once by the walk after all of the root's
descendants and once more by validate — and its length exceeds the
number of distinct entries (by allocation identity) by exactly one. -/
theorem root_registered_twice (archid : Nat) (sf : ScrambledFile) (fu : Nat)
    (h : hpifile) (r : hpientry)
    (hok : hpiopen archid sf fu = .ok h) (hr : h.root = some r) :
    (∃ l0, h.flatlist = l0 ++ [r, r] ∧
      ((l0 ++ [r]).map hpientry.uid).Nodup) ∧
    h.flatlist.length = (h.flatlist.map hpientry.uid).toFinset.card + 1 := by
  obtain ⟨r0, st, c, hd, hroot, hflat, _⟩ := validate_ok_elim archid sf fu h hok
  rw [hroot, Option.some.injEq] at hr
  subst hr
  obtain ⟨⟨new, hext, hlast, _⟩, _⟩ := (walk_invariant fu).1 _ _ _ _ _ _ _ _ _ hd
  obtain ⟨hfl, _, hpair, _, _⟩ := hext
  rw [List.nil_append] at hfl
  obtain ⟨l0, hl0⟩ := List.getLast?_eq_some_iff.mp hlast
  have hnodup : (new.map hpientry.uid).Nodup :=
    hpair.imp (fun hlt => Nat.ne_of_lt hlt)
  have hflat' : h.flatlist = l0 ++ [r0, r0] := by
    rw [hflat, hfl, hl0, List.append_assoc]
    rfl
  refine ⟨⟨l0, hflat', by rw [← hl0]; exact hnodup⟩, ?_⟩
  have hmapflat : h.flatlist.map hpientry.uid =
      new.map hpientry.uid ++ [r0.uid] := by
    rw [hflat, hfl, List.map_append]
    rfl
  have hmem : r0.uid ∈ new.map hpientry.uid :=
    List.mem_map_of_mem hpientry.uid (List.mem_of_mem_getLast? hlast)
  have hfin : (h.flatlist.map hpientry.uid).toFinset =
      (new.map hpientry.uid).toFinset := by
    rw [hmapflat, List.toFinset_append]
    simp only [List.toFinset_cons, List.toFinset_nil, insert_emptyc_eq]
    exact Finset.union_eq_left.mpr
      (Finset.singleton_subset_iff.mpr (List.mem_toFinset.mpr hmem))
  rw [hfin, List.toFinset_card_of_nodup hnodup, hflat, hfl]
  simp

/-- Witness for C10 at a concrete archive. -/
theorem root_registered_twice_witness :
    ∃ h r, hpiopen 0 sfOneFile 9 = .ok h ∧ h.root = some r ∧
      ((∃ l0, h.flatlist = l0 ++ [r, r] ∧
        ((l0 ++ [r]).map hpientry.uid).Nodup) ∧
       h.flatlist.length =
         (h.flatlist.map hpientry.uid).toFinset.card + 1) :=
  ⟨_, _, rfl, rfl, root_registered_twice 0 sfOneFile 9 _ _ rfl rfl⟩

/-- C8: cursor save/restore discipline of the record loop: a successful
`dirloop` over `n` records starting at cursor `c` ends with the cursor
at `c + 9 * n` — every iteration resumes at the position saved just
past its 9-byte record, wherever the name read, the info reads or a
recursive subdirectory walk moved the cursor in between — and a whole
`dirinfo` at `offset` ends at `offset + 8 + 9 * entryCount`. -/
theorem dirloop_cursor_restored :
    (∀ fu sf arch np n c st l st' c',
      hpifile.dirloop fu sf arch np n c st = .ok (l, st', c') →
      c' = c + 9 * n) ∧
    (∀ fu sf arch pn dn off st r st' c',
      hpifile.dirinfo fu sf arch pn dn off st = .ok (r, st', c') →
      c' = off + 8 + 9 * sf.readintAt off) :=
  ⟨fun fu _ _ _ _ _ _ _ _ _ hok =>
      ((walk_invariant fu).2 _ _ _ _ _ _ _ _ _ hok).2,
   fun fu _ _ _ _ _ _ _ _ _ hok =>
      ((walk_invariant fu).1 _ _ _ _ _ _ _ _ _ hok).2⟩

/-- Witness for C8 at a concrete one-record directory. -/
theorem dirloop_cursor_restored_witness :
    ∃ r st c', hpifile.dirinfo 5 sfOneFile 0 "" "" 20 ⟨[], 0⟩ =
        .ok (r, st, c') ∧
      c' = 20 + 8 + 9 * sfOneFile.readintAt 20 :=
  ⟨_, _, _, rfl,
    dirloop_cursor_restored.2 5 sfOneFile 0 "" "" 20 ⟨[], 0⟩ _ _ _ rfl⟩

/-- C5: a record whose entry-type byte is neither 0 nor 1 makes the
record loop fail immediately and unconditionally with
`unknownEntryType` — no child entry is built — and a walk failure on
the open path makes the whole open a thrown exception, so the caller
receives no archive object (partial or otherwise). -/
theorem unknown_entrytype_aborts :
    (∀ fu sf arch np n' c st, sf.readByteAt (c + 8) ≠ 0 →
      sf.readByteAt (c + 8) ≠ 1 →
      hpifile.dirloop (fu + 1) sf arch np (n' + 1) c st =
        .error .unknownEntryType) ∧
    (∀ fu sf arch np n' c st e, sf.readByteAt (c + 8) = 1 →
      hpifile.dirinfo fu sf arch np (sf.readstringAt (sf.readintAt c)).1
        (sf.readintAt (c + 4)) st = .error e →
      hpifile.dirloop (fu + 1) sf arch np (n' + 1) c st = .error e) ∧
    (∀ fu sf arch pn dn off st e,
      hpifile.dirloop fu sf arch
        (if pn = "" then dn else pn ++ PATHSEPARATOR ++ dn)
        (sf.readintAt off) (off + 8) st = .error e →
      hpifile.dirinfo (fu + 1) sf arch pn dn off st = .error e) ∧
    (∀ archid sf fu e, sf.readintAt 0 = HAPI_MAGIC →
      sf.readintAt 4 = HAPI_VERSION_MAGIC →
      hpifile.dirinfo fu (sf.setkey (sf.readintAt 12)) archid "" ""
        (sf.readintAt 16) ⟨[], 0⟩ = .error e →
      hpiopen archid sf fu = .thrown e) := by
  refine ⟨?_, ?_, ?_, ?_⟩
  · intro fu sf arch np n' c st h0 h1
    obtain ⟨k, hk⟩ : ∃ k, sf.readByteAt (c + 8) = k + 2 :=
      ⟨sf.readByteAt (c + 8) - 2, by omega⟩
    simp [hpifile.dirloop, hk]
  · intro fu sf arch np n' c st e h1 herr
    simp [hpifile.dirloop, h1, herr]
  · intro fu sf arch pn dn off st e herr
    simp [hpifile.dirinfo, herr]
  · intro archid sf fu e hm1 hm2 hd
    simp [hpiopen, hpifile.validate, hm1, hm2, hd]

/-- Witness for C5 at a concrete archive whose single record has
entry-type byte 7. -/
theorem unknown_entrytype_aborts_witness :
    hpifile.dirloop 5 sfBadType 0 "" 1 28 ⟨[], 0⟩ =
        .error .unknownEntryType ∧
      hpiopen 0 sfBadType 5 = .thrown .unknownEntryType :=
  ⟨unknown_entrytype_aborts.1 4 sfBadType 0 "" 0 28 ⟨[], 0⟩
      (by decide) (by decide),
   unknown_entrytype_aborts.2.2.2 0 sfBadType 5 .unknownEntryType
      (by decide) (by decide) rfl⟩

/-- C6: `getdata`'s precondition checks run before any stream access:
an entry whose back-reference is not this archive fails with
`entryMismatch`; an entry of this archive that is a directory fails
with `notAFile`.  Both return count 0, leave the stream cursor exactly
where it was, and hand no range to the codec; `getdata` takes the
archive immutably and returns no modified archive, so the entry tree,
flat list and validity are untouched and the archive stays usable. -/
theorem getdata_precondition_checks (h : hpifile)
    (codec : Nat → Nat → Option (List Nat)) (he : hpientry) (cursor : Nat) :
    (he.file ≠ h.id →
      h.getdata codec he cursor = ⟨.error .entryMismatch, cursor, []⟩ ∧
      retcount (h.getdata codec he cursor).res = 0) ∧
    (he.file = h.id → he.directory = true →
      h.getdata codec he cursor = ⟨.error .notAFile, cursor, []⟩ ∧
      retcount (h.getdata codec he cursor).res = 0) := by
  constructor
  · intro hne
    have hg : h.getdata codec he cursor = ⟨.error .entryMismatch, cursor, []⟩ := by
      unfold hpifile.getdata
      rw [if_pos hne]
    exact ⟨hg, by rw [hg]; rfl⟩
  · intro heq hdir
    have hg : h.getdata codec he cursor = ⟨.error .notAFile, cursor, []⟩ := by
      unfold hpifile.getdata
      rw [if_neg (by simp [heq]), if_pos hdir]
    exact ⟨hg, by rw [hg]; rfl⟩

/-- Witness for C6 at a concrete foreign entry and a concrete directory
entry. -/
theorem getdata_precondition_checks_witness :
    (hChunks.getdata codecFive heForeign 3 = ⟨.error .entryMismatch, 3, []⟩ ∧
      retcount (hChunks.getdata codecFive heForeign 3).res = 0) ∧
    (hChunks.getdata codecFive heDirEnt 3 = ⟨.error .notAFile, 3, []⟩ ∧
      retcount (hChunks.getdata codecFive heDirEnt 3).res = 0) :=
  ⟨(getdata_precondition_checks hChunks codecFive heForeign 3).1 (by decide),
   (getdata_precondition_checks hChunks codecFive heDirEnt 3).2 rfl rfl⟩

/-- C7: header validation is an exhaustive taxonomy over the first two
little-endian u32 fields: `invalidSignature` exactly when `magic1`
differs from the container signature; with `magic1` good,
`subtypeSavegame` exactly when `magic2` is the save-game constant,
`subtypeHapi2` exactly when it is the newer-major-version constant, and
`subtypeUnknown` exactly on any other `magic2` mismatch; only when both
match does open read the remaining header fields, set the stream's
transform key, and proceed to the walk with the archive marked valid
(or propagate the walk's exception). -/
theorem validate_header_taxonomy (archid : Nat) (sf : ScrambledFile) (fu : Nat) :
    (openDiag (hpiopen archid sf fu) =
        some (.invalidSignature (sf.readintAt 0)) ↔
      sf.readintAt 0 ≠ HAPI_MAGIC) ∧
    (openDiag (hpiopen archid sf fu) =
        some (.subtypeSavegame (sf.readintAt 4)) ↔
      (sf.readintAt 0 = HAPI_MAGIC ∧ sf.readintAt 4 = BANK_MAGIC)) ∧
    (openDiag (hpiopen archid sf fu) = some .subtypeHapi2 ↔
      (sf.readintAt 0 = HAPI_MAGIC ∧
        sf.readintAt 4 = HAPI2_VERSION_MAGIC)) ∧
    (openDiag (hpiopen archid sf fu) =
        some (.subtypeUnknown (sf.readintAt 4)) ↔
      (sf.readintAt 0 = HAPI_MAGIC ∧ sf.readintAt 4 ≠ HAPI_VERSION_MAGIC ∧
        sf.readintAt 4 ≠ BANK_MAGIC ∧
        sf.readintAt 4 ≠ HAPI2_VERSION_MAGIC)) ∧
    (sf.readintAt 0 = HAPI_MAGIC → sf.readintAt 4 = HAPI_VERSION_MAGIC →
      ((∃ e, hpiopen archid sf fu = .thrown e) ∨
       (∃ h, hpiopen archid sf fu = .ok h ∧ h.valid = true ∧
         h.header_hapimagic = sf.readintAt 0 ∧
         h.header_bankmagic = sf.readintAt 4 ∧
         h.header_offset = sf.readintAt 8 ∧ h.header_key = sf.readintAt 12 ∧
         h.header_diroffset = sf.readintAt 16 ∧
         h.file.key = sf.readintAt 12))) := by
  by_cases hm1 : sf.readintAt 0 = HAPI_MAGIC
  · by_cases hm2 : sf.readintAt 4 = HAPI_VERSION_MAGIC
    · cases hd : hpifile.dirinfo fu (sf.setkey (sf.readintAt 12)) archid "" ""
          (sf.readintAt 16) ⟨[], 0⟩ with
      | error e =>
        have hopen : hpiopen archid sf fu = .thrown e := by
          simp +decide [hpiopen, hpifile.validate, hm1, hm2, hd]
        refine ⟨?_, ?_, ?_, ?_, fun _ _ => Or.inl ⟨e, hopen⟩⟩ <;>
          simp +decide [hopen, openDiag, hm1, hm2]
      | ok res =>
        obtain ⟨root, st, c⟩ := res
        have hopen : hpiopen archid sf fu = .ok
            ⟨archid, sf.setkey (sf.readintAt 12), true, HAPI_MAGIC,
              HAPI_VERSION_MAGIC, sf.readintAt 8, sf.readintAt 12,
              sf.readintAt 16, some root, st.flatlist ++ [root]⟩ := by
          simp +decide [hpiopen, hpifile.validate, hm1, hm2, hd]
        refine ⟨?_, ?_, ?_, ?_, fun _ _ => Or.inr
            ⟨_, hopen, rfl, hm1.symm, hm2.symm, rfl, rfl, rfl, rfl⟩⟩ <;>
          simp +decide [hopen, openDiag, hm1, hm2]
    · refine ⟨?_, ?_, ?_, ?_, fun _ hx => absurd hx hm2⟩ <;>
        by_cases hb : sf.readintAt 4 = BANK_MAGIC <;>
        by_cases hh : sf.readintAt 4 = HAPI2_VERSION_MAGIC <;>
        first
        | (exact absurd (hb ▸ hh) (by decide))
        | simp +decide [hpiopen, hpifile.validate, openDiag, hm1, hm2, hb, hh]
  · refine ⟨?_, ?_, ?_, ?_, fun hx _ => absurd hx hm1⟩ <;>
      simp +decide [hpiopen, hpifile.validate, openDiag, hm1]

/-- Witness for C7 at a concrete archive whose both magics match. -/
theorem validate_header_taxonomy_witness :
    (∃ e, hpiopen 0 sfEmptyRoot 5 = .thrown e) ∨
    (∃ h, hpiopen 0 sfEmptyRoot 5 = .ok h ∧ h.valid = true ∧
      h.header_hapimagic = sfEmptyRoot.readintAt 0 ∧
      h.header_bankmagic = sfEmptyRoot.readintAt 4 ∧
      h.header_offset = sfEmptyRoot.readintAt 8 ∧
      h.header_key = sfEmptyRoot.readintAt 12 ∧
      h.header_diroffset = sfEmptyRoot.readintAt 16 ∧
      h.file.key = sfEmptyRoot.readintAt 12) :=
  (validate_header_taxonomy 0 sfEmptyRoot 5).2.2.2.2 (by decide) (by decide)

/-- C2 (the code evaluated at the failing input): on a two-chunk entry
whose chunk-size table reads 10 and 7, with a codec decompressing the
first chunk to 3 bytes, the two bounded ranges handed to the codec are
`(508, 10)` and `(511, 7)`: the second range starts at
`chunkoffset + 3` — the running cursor advanced by the decompressed
byte count — and not at `chunkoffset + chunkSize[0] = 518` as the claim
states. -/
theorem getdata_cursor_advance_failing_input :
    (hChunks.getdata codecShrink heTwoChunks 0).calls = [(508, 10), (511, 7)] ∧
    heTwoChunks.offset + 4 * chunknumOf heTwoChunks.size + 10 = 518 ∧
    (511 : Nat) ≠ 518 := by
  decide
